import Mathlib

/-!
Verification of the priority task queue of `src/services/queue/taskQueue.ts`
(class `TaskQueue`), the scheduling core of the AI blog engine.

The TypeScript class is shallowly embedded as pure Lean functions over an
explicit state record `TaskQueue`.  JavaScript `Date` timestamps are `Nat`,
task ids are the `String` values the source generates, the `processing`
JavaScript `Set<string>` is a duplicate-free `List String`, and the opaque
`BlogPost` result payload is an opaque `String`.  Asynchronous execution is
modelled by a labelled transition relation `Step`: submissions, scheduler
passes (`processQueue`), and the resolution of a dispatched work unit
(`processTask` reaching its success or failure branch) are the events.
-/

/-- Task priority, from the `priority` field of `GenerationTask`
(`src/types`, part_006 lines 126-137): one of low, medium, high. -/
inductive Priority where
  | low : Priority
  | medium : Priority
  | high : Priority
  deriving DecidableEq, Repr

/-- Task lifecycle status, from `GenerationTask.status`:
one of pending, processing, completed, failed. -/
inductive Status where
  | pending : Status
  | processing : Status
  | completed : Status
  | failed : Status
  deriving DecidableEq, Repr

/-- The `GenerationTask` interface (`src/types`, part_006 lines 126-137).
`result?: BlogPost` is modelled as an opaque `Option String` payload;
`Date` values are `Nat` timestamps; optional fields are `Option`. -/
structure GenerationTask where
  id : String
  topic : String
  keywords : List String
  status : Status
  priority : Priority
  result : Option String
  error : Option String
  createdAt : Nat
  startedAt : Option Nat
  completedAt : Option Nat
  deriving DecidableEq, Repr

/-- The caller-supplied part of a submission:
`Omit<GenerationTask, 'id' | 'status' | 'createdAt'>` restricted to its
payload fields (`addTask`, taskQueue.ts line 33). -/
structure TaskInput where
  topic : String
  keywords : List String
  priority : Priority
  deriving DecidableEq, Repr

/-- Events emitted through the `EventEmitter` base class: `taskAdded`
(taskQueue.ts line 50) and `taskCompleted` with the task (line 120,
logged here by task id). -/
inductive Emitted where
  | taskAdded : Emitted
  | taskCompleted : String → Emitted
  deriving DecidableEq, Repr

/-- Recognizer for the `taskAdded` event. -/
def isTaskAdded : Emitted → Bool
  | Emitted.taskAdded => true
  | Emitted.taskCompleted _ => false

/-- State of a `TaskQueue` instance (taskQueue.ts lines 9-14):
the `queue` array, the `processing` set of ids, the configured
`config.queue.maxConcurrent` ceiling, the `running` flag, and the log of
emitted events. -/
structure TaskQueue where
  queue : List GenerationTask
  processing : List String
  maxConcurrent : Nat
  running : Bool
  events : List Emitted
  deriving DecidableEq, Repr

/-- A fresh `TaskQueue` instance for a configured ceiling
(constructor, taskQueue.ts lines 16-20). -/
def initQueue (maxConcurrent : Nat) : TaskQueue :=
  { queue := [], processing := [], maxConcurrent := maxConcurrent,
    running := false, events := [] }

/-- The `priorityValues` table of `sortQueue` (taskQueue.ts lines 60-64):
high 3, medium 2, low 1. -/
def priorityValues : Priority → Nat
  | Priority.high => 3
  | Priority.medium => 2
  | Priority.low => 1

/-- The sort key the comparator of `sortQueue` reads: priority value and
creation timestamp.  No other field influences the ordering. -/
def taskKey (t : GenerationTask) : Nat × Nat :=
  (priorityValues t.priority, t.createdAt)

/-- Comparator order on sort keys: larger priority value first; on equal
priority, smaller (older) creation time first. -/
def keyLE (a b : Nat × Nat) : Prop :=
  b.1 < a.1 ∨ (a.1 = b.1 ∧ a.2 ≤ b.2)

instance (a b : Nat × Nat) : Decidable (keyLE a b) := by
  unfold keyLE
  infer_instance

/-- The comparator of `sortQueue` (taskQueue.ts lines 66-70), read as the
non-strict "may come before" relation: the comparator returns a negative
number for (a, b) exactly when a has the larger priority value or equal
priority and strictly smaller creation time, and returns 0 when both key
components tie. -/
def taskBefore (a b : GenerationTask) : Prop :=
  keyLE (taskKey a) (taskKey b)

instance (a b : GenerationTask) : Decidable (taskBefore a b) := by
  unfold taskBefore
  infer_instance

/-- Stable insertion of a task into a comparator-sorted list. -/
def insertTask (a : GenerationTask) : List GenerationTask → List GenerationTask
  | [] => [a]
  | b :: l => if taskBefore a b then a :: b :: l else b :: insertTask a l

/-- `sortQueue` (taskQueue.ts lines 59-71): `Array.prototype.sort` with the
priority/creation-time comparator.  `sort` is stable (ES2019) and the
comparator induces a total preorder, so the stable insertion sort below is
observationally the unique result the source produces. -/
def sortQueue : List GenerationTask → List GenerationTask
  | [] => []
  | a :: l => insertTask a (sortQueue l)

/-- The task record `addTask` builds (taskQueue.ts lines 35-40): the
caller's payload plus a fresh id, status pending and the creation time. -/
def newTaskOf (inp : TaskInput) (id : String) (now : Nat) : GenerationTask :=
  { id := id, topic := inp.topic, keywords := inp.keywords,
    status := Status.pending, priority := inp.priority,
    result := none, error := none, createdAt := now,
    startedAt := none, completedAt := none }

/-- `addTask` (taskQueue.ts lines 33-53): push the new pending task, sort
the queue, emit `taskAdded`, and return the id.  The id (line 34,
`Date.now()` plus a random suffix) is supplied by the environment.
There is no validation of the input whatsoever. -/
def addTask (inp : TaskInput) (id : String) (now : Nat) (s : TaskQueue) :
    TaskQueue × String :=
  ({ s with
      queue := sortQueue (s.queue ++ [newTaskOf inp id now]),
      events := s.events ++ [Emitted.taskAdded] },
    id)

/-- `getTask` (taskQueue.ts lines 55-57): `this.queue.find(t => t.id ===
taskId)`, i.e. the first stored task with the requested id, or undefined. -/
def getTask (s : TaskQueue) (taskId : String) : Option GenerationTask :=
  s.queue.find? (fun t => decide (t.id = taskId))

/-- Index of the first element satisfying a predicate.  JavaScript
`Array.prototype.find` returns the stored element itself, not a copy; we
make that aliasing explicit by also computing the position of the object
`getTask` hands out. -/
def refFind (p : GenerationTask → Bool) : List GenerationTask → Option Nat
  | [] => none
  | t :: q => if p t then some 0 else (refFind p q).map (· + 1)

/-- The reference `getTask` returns, modelled as the index of the stored
object inside `this.queue` (taskQueue.ts line 56). -/
def getTaskRef (s : TaskQueue) (taskId : String) : Option Nat :=
  refFind (fun t => decide (t.id = taskId)) s.queue

/-- In-place update of the list element at an index (identity elsewhere). -/
def mutateAt (f : GenerationTask → GenerationTask) :
    Nat → List GenerationTask → List GenerationTask
  | _, [] => []
  | 0, t :: q => f t :: q
  | n + 1, t :: q => t :: mutateAt f n q

/-- A caller-side field write performed through the object reference that
`getTask` returned: since the object is the queue's own array element, the
write lands in the queue's internal state. -/
def writeThroughRef (s : TaskQueue) (r : Nat) (f : GenerationTask → GenerationTask) :
    TaskQueue :=
  { s with queue := mutateAt f r s.queue }

/-- The pending-status test of the scheduler
(`task.status === 'pending'`, taskQueue.ts line 79). -/
def isPending (t : GenerationTask) : Bool :=
  decide (t.status = Status.pending)

/-- The in-place mutation `processQueue` performs on the admitted task
(taskQueue.ts lines 83-84): status processing, startedAt now. -/
def setProcessing (now : Nat) (t : GenerationTask) : GenerationTask :=
  { t with status := Status.processing, startedAt := some now }

/-- Mutation of the object `queue.find(pending)` returned: the first
pending task of the array is marked processing in place. -/
def markFirstPending (now : Nat) : List GenerationTask → List GenerationTask
  | [] => []
  | t :: q =>
    if isPending t then setProcessing now t :: q
    else t :: markFirstPending now q

/-- `Set.prototype.add` on the processing set (taskQueue.ts line 85):
insert the id if absent. -/
def sadd (id : String) (l : List String) : List String :=
  if id ∈ l then l else id :: l

/-- The state after one iteration of the admission loop admitting task
`t` (taskQueue.ts lines 83-90): the first pending task marked processing
in place and `t.id` added to the processing set. -/
def admitState (now : Nat) (t : GenerationTask) (s : TaskQueue) : TaskQueue :=
  { s with
      queue := markFirstPending now s.queue,
      processing := sadd t.id s.processing }

/-- The admission `while` loop of `processQueue` (taskQueue.ts lines
78-92): while the processing set is strictly below `maxConcurrent` and the
queue is nonempty, find the first pending task; if none, break; otherwise
mark it processing, record its start time, add its id to the processing
set, and dispatch it (fire and forget; resolution is a later event).  Each
iteration strictly decreases the number of pending tasks, so fuel
`queue.length` suffices. -/
def admitLoop (now : Nat) : Nat → TaskQueue → TaskQueue
  | 0, s => s
  | fuel + 1, s =>
    if s.processing.length < s.maxConcurrent ∧ 0 < s.queue.length then
      match s.queue.find? isPending with
      | none => s
      | some t => admitLoop now fuel (admitState now t s)
    else s

/-- `processQueue` (taskQueue.ts lines 73-96): a no-op when the queue is
not running (line 74), otherwise the admission loop.  The trailing
`setTimeout` re-check is modelled by `tick` events being available at any
time. -/
def processQueue (now : Nat) (s : TaskQueue) : TaskQueue :=
  if s.running then admitLoop now s.queue.length s else s

/-- The net effect of the caller-supplied work callback on the live task
object it is handed (type `TaskCallback`, taskQueue.ts line 7: the
callback returns `Promise<void>`, so it communicates only by mutating the
task).  `some r` records the callback assigning `task.result = r`; `none`
records a callback that left `result` untouched. -/
def applyResult (res : Option String) (t : GenerationTask) : GenerationTask :=
  match res with
  | some r => { t with result := some r }
  | none => t

/-- The work callback `server.ts` wires into the queue (lines 24-40 of the
pasted server source): on success it assigns `task.result = post`. -/
def serverCallbackEffect (post : String) (t : GenerationTask) : GenerationTask :=
  { t with result := some post }

/-- The success branch of `processTask` (taskQueue.ts lines 100-104): the
queue writes status completed and the completion time, and nothing else. -/
def completeBookkeeping (now : Nat) (t : GenerationTask) : GenerationTask :=
  { t with status := Status.completed, completedAt := some now }

/-- The catch branch of `processTask` (taskQueue.ts lines 106-112): status
failed, the captured error message, and the completion time. -/
def failBookkeeping (msg : String) (now : Nat) (t : GenerationTask) : GenerationTask :=
  { t with status := Status.failed, error := some msg, completedAt := some now }

/-- The shared resolution path of `processTask`: apply the per-task update
to the dispatched object (located in the queue array by its id, which the
reachability invariant keeps unique), then the `finally` block (taskQueue.ts
lines 114-121): delete the id from the processing set and emit
`taskCompleted`.  This runs on the success and on the failure branch
alike. -/
def resolveWith (f : GenerationTask → GenerationTask) (id : String) (s : TaskQueue) :
    TaskQueue :=
  { s with
      queue := s.queue.map (fun t => if t.id = id then f t else t),
      processing := s.processing.erase id,
      events := s.events ++ [Emitted.taskCompleted id] }

/-- Resolution of a dispatched work unit whose callback returned normally
(`processTask`, success path): the callback's own `result` write, then the
queue's bookkeeping, then the `finally` block. -/
def completeTask (id : String) (res : Option String) (now : Nat) (s : TaskQueue) :
    TaskQueue :=
  resolveWith (fun t => completeBookkeeping now (applyResult res t)) id s

/-- Resolution of a dispatched work unit whose callback threw or rejected
(`processTask`, catch path), followed by the same `finally` block. -/
def failTask (id : String) (msg : String) (now : Nat) (s : TaskQueue) : TaskQueue :=
  resolveWith (failBookkeeping msg now) id s

/-- The `byStatus` object of `getStats` (taskQueue.ts lines 128-133). -/
structure StatusCounts where
  pending : Nat
  processing : Nat
  completed : Nat
  failed : Nat
  deriving DecidableEq, Repr

/-- The `byPriority` object of `getStats` (taskQueue.ts lines 134-138). -/
structure PriorityCounts where
  high : Nat
  medium : Nat
  low : Nat
  deriving DecidableEq, Repr

/-- The record `getStats` returns (taskQueue.ts lines 124-140). -/
structure QueueStats where
  queueLength : Nat
  processing : Nat
  byStatus : StatusCounts
  byPriority : PriorityCounts
  deriving DecidableEq, Repr

/-- `getStats` (taskQueue.ts lines 124-140): the length of the whole task
array, the size of the processing set, and the filter counts by status and
by priority. -/
def getStats (s : TaskQueue) : QueueStats :=
  { queueLength := s.queue.length,
    processing := s.processing.length,
    byStatus :=
      { pending := (s.queue.filter (fun t => decide (t.status = Status.pending))).length,
        processing := (s.queue.filter (fun t => decide (t.status = Status.processing))).length,
        completed := (s.queue.filter (fun t => decide (t.status = Status.completed))).length,
        failed := (s.queue.filter (fun t => decide (t.status = Status.failed))).length },
    byPriority :=
      { high := (s.queue.filter (fun t => decide (t.priority = Priority.high))).length,
        medium := (s.queue.filter (fun t => decide (t.priority = Priority.medium))).length,
        low := (s.queue.filter (fun t => decide (t.priority = Priority.low))).length } }

/-- `start` (taskQueue.ts lines 22-26): set running and run a scheduling
pass immediately. -/
def startQueue (now : Nat) (s : TaskQueue) : TaskQueue :=
  processQueue now { s with running := true }

/-- `stop` (taskQueue.ts lines 28-31): clear the running flag; nothing
else is touched and in-flight work is not cancelled. -/
def stopQueue (s : TaskQueue) : TaskQueue :=
  { s with running := false }

/-- Labels of the observable events of a queue instance. -/
inductive Ev where
  | submit : TaskInput → String → Nat → Ev
  | tick : Nat → Ev
  | complete : String → Option String → Nat → Ev
  | fail : String → String → Nat → Ev
  | start : Nat → Ev
  | stop : Ev
  deriving DecidableEq, Repr

/-- Small-step semantics of a queue instance.  A submission carries the
generated id, fresh by construction (`Date.now()` plus random suffix,
taskQueue.ts line 34).  A work unit can resolve (successfully or not) only
while its id sits in the processing set: `processTask` is invoked exactly
once per admission and its try/catch/finally runs exactly once per
invocation. -/
inductive Step : TaskQueue → Ev → TaskQueue → Prop where
  | submit {s : TaskQueue} {inp : TaskInput} {id : String} {now : Nat}
      (hfresh : ∀ t ∈ s.queue, t.id ≠ id) :
      Step s (Ev.submit inp id now) (addTask inp id now s).1
  | tick {s : TaskQueue} {now : Nat} :
      Step s (Ev.tick now) (processQueue now s)
  | complete {s : TaskQueue} {id : String} {res : Option String} {now : Nat}
      (hin : id ∈ s.processing) :
      Step s (Ev.complete id res now) (completeTask id res now s)
  | fail {s : TaskQueue} {id : String} {msg : String} {now : Nat}
      (hin : id ∈ s.processing) :
      Step s (Ev.fail id msg now) (failTask id msg now s)
  | start {s : TaskQueue} {now : Nat} :
      Step s (Ev.start now) (startQueue now s)
  | stop {s : TaskQueue} :
      Step s Ev.stop (stopQueue s)

/-- Some event takes `s` to `s'`. -/
def StepAny (s s' : TaskQueue) : Prop :=
  ∃ e, Step s e s'

/-- States a queue instance configured with ceiling `c` can reach. -/
def Reachable (c : Nat) (s : TaskQueue) : Prop :=
  Relation.ReflTransGen StepAny (initQueue c) s

/-! Order-theoretic facts about the comparator. -/

lemma keyLE_total (a b : Nat × Nat) : keyLE a b ∨ keyLE b a := by
  unfold keyLE
  omega

lemma keyLE_trans {a b c : Nat × Nat} (h1 : keyLE a b) (h2 : keyLE b c) : keyLE a c := by
  unfold keyLE at h1 h2 ⊢
  omega

lemma taskBefore_total (a b : GenerationTask) : taskBefore a b ∨ taskBefore b a :=
  keyLE_total _ _

lemma taskBefore_trans {a b c : GenerationTask} (h1 : taskBefore a b)
    (h2 : taskBefore b c) : taskBefore a c :=
  keyLE_trans h1 h2

lemma taskBefore_congr {a a' b b' : GenerationTask} (ha : taskKey a = taskKey a')
    (hb : taskKey b = taskKey b') : taskBefore a b ↔ taskBefore a' b' := by
  unfold taskBefore
  rw [ha, hb]

/-! The insertion sort implementing the stable comparator sort. -/

lemma insertTask_perm (a : GenerationTask) (l : List GenerationTask) :
    (insertTask a l).Perm (a :: l) := by
  induction l with
  | nil => simp [insertTask]
  | cons b l ih =>
    by_cases hab : taskBefore a b
    · simp [insertTask, if_pos hab]
    · simp only [insertTask, if_neg hab]
      exact (ih.cons b).trans (List.Perm.swap a b l)

lemma sortQueue_perm (l : List GenerationTask) : (sortQueue l).Perm l := by
  induction l with
  | nil => exact List.Perm.refl _
  | cons a l ih =>
    exact (insertTask_perm a (sortQueue l)).trans (ih.cons a)

lemma mem_sortQueue {x : GenerationTask} {l : List GenerationTask} :
    x ∈ sortQueue l ↔ x ∈ l :=
  (sortQueue_perm l).mem_iff

lemma pairwise_insertTask (a : GenerationTask) {l : List GenerationTask}
    (h : List.Pairwise taskBefore l) :
    List.Pairwise taskBefore (insertTask a l) := by
  induction l with
  | nil => simp [insertTask]
  | cons b l ih =>
    cases h with
    | cons hb hl =>
      by_cases hab : taskBefore a b
      · simp only [insertTask, if_pos hab]
        refine List.Pairwise.cons ?_ (List.Pairwise.cons hb hl)
        intro x hx
        rcases List.mem_cons.mp hx with rfl | hx
        · exact hab
        · exact taskBefore_trans hab (hb x hx)
      · simp only [insertTask, if_neg hab]
        refine List.Pairwise.cons ?_ (ih hl)
        intro x hx
        rcases List.mem_cons.mp ((insertTask_perm a l).mem_iff.mp hx) with hxa | hx
        · rw [hxa]
          rcases taskBefore_total a b with h1 | h1
          · exact absurd h1 hab
          · exact h1
        · exact hb x hx

lemma pairwise_sortQueue (l : List GenerationTask) :
    List.Pairwise taskBefore (sortQueue l) := by
  induction l with
  | nil => exact List.Pairwise.nil
  | cons a l ih => exact pairwise_insertTask a ih

/-! Field-preservation facts for the in-place task mutations. -/

lemma setProcessing_id (now : Nat) (t : GenerationTask) :
    (setProcessing now t).id = t.id := rfl

lemma taskKey_setProcessing (now : Nat) (t : GenerationTask) :
    taskKey (setProcessing now t) = taskKey t := rfl

lemma taskKey_completeBookkeeping (now : Nat) (t : GenerationTask) :
    taskKey (completeBookkeeping now t) = taskKey t := rfl

lemma taskKey_failBookkeeping (msg : String) (now : Nat) (t : GenerationTask) :
    taskKey (failBookkeeping msg now t) = taskKey t := rfl

lemma taskKey_applyResult (res : Option String) (t : GenerationTask) :
    taskKey (applyResult res t) = taskKey t := by
  cases res <;> rfl

lemma applyResult_id (res : Option String) (t : GenerationTask) :
    (applyResult res t).id = t.id := by
  cases res <;> rfl

lemma applyResult_status (res : Option String) (t : GenerationTask) :
    (applyResult res t).status = t.status := by
  cases res <;> rfl

/-! Facts about `markFirstPending`. -/

lemma markFirstPending_ids (now : Nat) (q : List GenerationTask) :
    (markFirstPending now q).map (fun t => t.id) = q.map (fun t => t.id) := by
  induction q with
  | nil => rfl
  | cons t q ih =>
    by_cases ht : isPending t
    · simp [markFirstPending, ht, setProcessing_id]
    · simp [markFirstPending, ht, ih]

lemma markFirstPending_length (now : Nat) (q : List GenerationTask) :
    (markFirstPending now q).length = q.length := by
  induction q with
  | nil => rfl
  | cons t q ih =>
    by_cases ht : isPending t
    · simp [markFirstPending, ht]
    · simp [markFirstPending, ht, ih]

lemma mem_markFirstPending {now : Nat} {q : List GenerationTask} {x : GenerationTask}
    (hx : x ∈ markFirstPending now q) :
    ∃ y, y ∈ q ∧ y.id = x.id ∧ taskKey y = taskKey x ∧
      (x = y ∨ (x = setProcessing now y ∧ isPending y = true)) := by
  induction q with
  | nil => cases hx
  | cons t q ih =>
    by_cases ht : isPending t
    · simp only [markFirstPending, if_pos ht] at hx
      rcases List.mem_cons.mp hx with hx | hx
      · exact ⟨t, List.mem_cons_self t q, by rw [hx]; rfl, by rw [hx]; rfl,
          Or.inr ⟨hx, ht⟩⟩
      · exact ⟨x, List.mem_cons_of_mem t hx, rfl, rfl, Or.inl rfl⟩
    · simp only [markFirstPending, if_neg ht] at hx
      rcases List.mem_cons.mp hx with hx | hx
      · exact ⟨x, hx ▸ List.mem_cons_self t q, rfl, rfl, Or.inl rfl⟩
      · rcases ih hx with ⟨y, hyq, hid, hkey, hcase⟩
        exact ⟨y, List.mem_cons_of_mem t hyq, hid, hkey, hcase⟩

lemma markFirstPending_append {now : Nat} {as bs : List GenerationTask}
    {t : GenerationTask} (has : ∀ a ∈ as, isPending a = false)
    (ht : isPending t = true) :
    markFirstPending now (as ++ t :: bs) = as ++ setProcessing now t :: bs := by
  induction as with
  | nil => simp [markFirstPending, ht]
  | cons a as ih =>
    have ha : isPending a = false := has a (List.mem_cons_self a as)
    simp only [List.cons_append, markFirstPending, ha]
    simp only [Bool.false_eq_true, if_false, List.cons.injEq, true_and]
    exact ih (fun x hx => has x (List.mem_cons_of_mem a hx))

lemma markFirstPending_of_none {now : Nat} {q : List GenerationTask}
    (h : q.find? isPending = none) : markFirstPending now q = q := by
  induction q with
  | nil => rfl
  | cons t q ih =>
    by_cases ht : isPending t
    · rw [List.find?_cons_of_pos _ ht] at h
      cases h
    · rw [List.find?_cons_of_neg _ ht] at h
      simp [markFirstPending, ht, ih h]

lemma pairwise_markFirstPending (now : Nat) {q : List GenerationTask}
    (h : List.Pairwise taskBefore q) :
    List.Pairwise taskBefore (markFirstPending now q) := by
  induction q with
  | nil => exact List.Pairwise.nil
  | cons t q ih =>
    cases h with
    | cons hb hq =>
      by_cases ht : isPending t
      · simp only [markFirstPending, if_pos ht]
        refine List.Pairwise.cons ?_ hq
        intro x hx
        exact (taskBefore_congr (taskKey_setProcessing now t) rfl).mpr (hb x hx)
      · simp only [markFirstPending, if_neg ht]
        refine List.Pairwise.cons ?_ (ih hq)
        intro x hx
        rcases mem_markFirstPending hx with ⟨y, hyq, _, hkey, _⟩
        exact (taskBefore_congr rfl hkey.symm).mpr (hb y hyq)

/-! Facts about the processing set operations. -/

lemma mem_sadd {x id : String} {l : List String} :
    x ∈ sadd id l ↔ x = id ∨ x ∈ l := by
  unfold sadd
  by_cases h : id ∈ l
  · rw [if_pos h]
    constructor
    · exact Or.inr
    · rintro (rfl | hx)
      · exact h
      · exact hx
  · rw [if_neg h]
    exact List.mem_cons

lemma sadd_nodup {id : String} {l : List String} (h : l.Nodup) : (sadd id l).Nodup := by
  unfold sadd
  by_cases hm : id ∈ l
  · rwa [if_pos hm]
  · rw [if_neg hm]
    exact List.Nodup.cons hm h

lemma sadd_length_of_not_mem {id : String} {l : List String} (h : id ∉ l) :
    (sadd id l).length = l.length + 1 := by
  unfold sadd
  rw [if_neg h]
  rfl

/-! Uniqueness of tasks by id under the no-duplicate-ids invariant. -/

lemma eq_of_mem_of_idsNodup {q : List GenerationTask} {t u : GenerationTask}
    (hnd : (q.map (fun t => t.id)).Nodup) (ht : t ∈ q) (hu : u ∈ q)
    (hid : t.id = u.id) : t = u := by
  have hpw : List.Pairwise (fun a b : GenerationTask => a.id ≠ b.id) q := by
    rw [List.Nodup, List.pairwise_map] at hnd
    exact hnd
  by_contra hne
  exact List.Pairwise.forall (fun a b h => (h ∘ Eq.symm)) hpw ht hu hne hid

/-! A sorted list's first match under `find?` is minimal among all matches. -/

lemma find_first_best {R : GenerationTask → GenerationTask → Prop}
    {p : GenerationTask → Bool} {l : List GenerationTask} {t : GenerationTask}
    (hpw : List.Pairwise R l) (hf : l.find? p = some t) :
    ∀ u ∈ l, p u = true → t = u ∨ R t u := by
  induction l with
  | nil => cases hf
  | cons x xs ih =>
    cases hpw with
    | cons hx hxs =>
      by_cases hpx : p x
      · rw [List.find?_cons_of_pos _ hpx] at hf
        cases hf
        intro u hu _
        rcases List.mem_cons.mp hu with rfl | hu
        · exact Or.inl rfl
        · exact Or.inr (hx u hu)
      · rw [List.find?_cons_of_neg _ hpx] at hf
        intro u hu hpu
        rcases List.mem_cons.mp hu with rfl | hu
        · exact absurd hpu (by simpa using hpx)
        · exact ih hxs hf u hu hpu
/-! The reachability invariant of a queue instance: task ids are unique,
the processing set is duplicate-free, holds exactly the ids of the tasks
whose status is processing, and never exceeds the ceiling; the queue array
stays comparator-sorted; and its length equals the number of `taskAdded`
events ever emitted. -/

structure QInv (s : TaskQueue) : Prop where
  idsNodup : (s.queue.map (fun t => t.id)).Nodup
  procNodup : s.processing.Nodup
  procMem : ∀ i ∈ s.processing, ∃ t, t ∈ s.queue ∧ t.id = i
  procIff : ∀ t ∈ s.queue, (t.id ∈ s.processing ↔ t.status = Status.processing)
  procBound : s.processing.length ≤ s.maxConcurrent
  sortedQ : List.Pairwise taskBefore s.queue
  lenEvents : s.queue.length = s.events.countP isTaskAdded

lemma inv_init (c : Nat) : QInv (initQueue c) := by
  refine ⟨List.nodup_nil, List.nodup_nil, ?_, ?_, Nat.zero_le c, List.Pairwise.nil, rfl⟩
  · intro i hi
    cases hi
  · intro t ht
    cases ht

lemma inv_addTask {s : TaskQueue} {inp : TaskInput} {id : String} {now : Nat}
    (hs : QInv s) (hfresh : ∀ t ∈ s.queue, t.id ≠ id) :
    QInv (addTask inp id now s).1 := by
  have hperm : (sortQueue (s.queue ++ [newTaskOf inp id now])).Perm
      (s.queue ++ [newTaskOf inp id now]) := sortQueue_perm _
  have hidnotin : id ∉ s.queue.map (fun t => t.id) := by
    intro hmem
    rcases List.mem_map.mp hmem with ⟨t, htq, hid⟩
    exact hfresh t htq hid
  have hidproc : id ∉ s.processing := by
    intro hmem
    rcases hs.procMem id hmem with ⟨t, htq, hid⟩
    exact hfresh t htq hid
  refine ⟨?_, hs.procNodup, ?_, ?_, hs.procBound, pairwise_sortQueue _, ?_⟩
  · refine ((hperm.map (fun t => t.id)).symm).nodup ?_
    rw [List.map_append]
    refine ((List.perm_append_singleton _ _).symm.nodup) ?_
    exact List.Nodup.cons hidnotin hs.idsNodup
  · intro i hi
    rcases hs.procMem i hi with ⟨t, htq, hid⟩
    exact ⟨t, mem_sortQueue.mpr (List.mem_append_left _ htq), hid⟩
  · intro t ht
    rcases List.mem_append.mp (mem_sortQueue.mp ht) with htq | htn
    · exact hs.procIff t htq
    · have : t = newTaskOf inp id now := List.mem_singleton.mp htn
      subst this
      constructor
      · intro hmem
        exact absurd hmem hidproc
      · intro hst
        cases hst
  · have h1 := hperm.length_eq
    rw [List.length_append, List.length_singleton] at h1
    have h2 : List.countP isTaskAdded (s.events ++ [Emitted.taskAdded])
        = List.countP isTaskAdded s.events + 1 := by
      rw [List.countP_append]
      rfl
    calc (addTask inp id now s).1.queue.length
        = s.queue.length + 1 := h1
      _ = List.countP isTaskAdded s.events + 1 := by rw [hs.lenEvents]
      _ = _ := h2.symm

lemma admitState_queue (now : Nat) (t : GenerationTask) (s : TaskQueue) :
    (admitState now t s).queue = markFirstPending now s.queue := rfl

lemma admitState_processing (now : Nat) (t : GenerationTask) (s : TaskQueue) :
    (admitState now t s).processing = sadd t.id s.processing := rfl

lemma inv_admitStep {s : TaskQueue} {now : Nat} {t : GenerationTask}
    (hs : QInv s) (hf : s.queue.find? isPending = some t)
    (hlt : s.processing.length < s.maxConcurrent) :
    QInv (admitState now t s) := by
  have hpend : isPending t = true := List.find?_some hf
  have htq : t ∈ s.queue := List.mem_of_find?_eq_some hf
  have htstat : t.status = Status.pending := by
    simpa [isPending] using hpend
  have htid : t.id ∉ s.processing := by
    intro hmem
    have hps := (hs.procIff t htq).mp hmem
    rw [htstat] at hps
    cases hps
  rcases (List.find?_eq_some.mp hf) with ⟨_, as, bs, hsplit, has⟩
  have hasf : ∀ a ∈ as, isPending a = false := by
    intro a ha
    have := has a ha
    simpa using this
  have hmark : markFirstPending now s.queue = as ++ setProcessing now t :: bs := by
    rw [hsplit]
    exact markFirstPending_append hasf hpend
  have hids : (s.queue.map (fun x => x.id)) = as.map (fun x => x.id)
      ++ t.id :: bs.map (fun x => x.id) := by
    rw [hsplit]
    simp
  have hnotas : t.id ∉ as.map (fun x => x.id) := by
    intro hmem
    have hnd := hs.idsNodup
    rw [hids] at hnd
    rcases List.nodup_append.mp hnd with ⟨_, h2, hdisj⟩
    exact hdisj hmem (List.mem_cons_self _ _)
  have hnotbs : t.id ∉ bs.map (fun x => x.id) := by
    intro hmem
    have hnd := hs.idsNodup
    rw [hids] at hnd
    rcases List.nodup_append.mp hnd with ⟨_, h2, _⟩
    exact (List.nodup_cons.mp h2).1 hmem
  refine ⟨?_, ?_, ?_, ?_, ?_, ?_, ?_⟩
  · rw [admitState_queue, markFirstPending_ids]
    exact hs.idsNodup
  · rw [admitState_processing]
    exact sadd_nodup hs.procNodup
  · intro i hi
    rw [admitState_processing] at hi
    rcases mem_sadd.mp hi with rfl | hi
    · refine ⟨setProcessing now t, ?_, rfl⟩
      rw [admitState_queue, hmark]
      exact List.mem_append_right _ (List.mem_cons_self _ _)
    · rcases hs.procMem i hi with ⟨u, huq, hid⟩
      have hin : i ∈ (markFirstPending now s.queue).map (fun x => x.id) := by
        rw [markFirstPending_ids]
        exact List.mem_map.mpr ⟨u, huq, hid⟩
      rcases List.mem_map.mp hin with ⟨x, hx, hxid⟩
      exact ⟨x, by rw [admitState_queue]; exact hx, hxid⟩
  · intro x hx
    rw [admitState_queue, hmark] at hx
    rw [admitState_processing]
    have hxcases : x ∈ as ∨ x = setProcessing now t ∨ x ∈ bs := by
      rcases List.mem_append.mp hx with h | h
      · exact Or.inl h
      · rcases List.mem_cons.mp h with h | h
        · exact Or.inr (Or.inl h)
        · exact Or.inr (Or.inr h)
    rcases hxcases with hxas | hxeq | hxbs
    · have hxq : x ∈ s.queue := by
        rw [hsplit]
        exact List.mem_append_left _ hxas
      have hxne : x.id ≠ t.id := by
        intro heq
        exact hnotas (heq ▸ List.mem_map.mpr ⟨x, hxas, rfl⟩)
      constructor
      · intro hmem
        rcases mem_sadd.mp hmem with h | h
        · exact absurd h hxne
        · exact (hs.procIff x hxq).mp h
      · intro h
        exact mem_sadd.mpr (Or.inr ((hs.procIff x hxq).mpr h))
    · subst hxeq
      constructor
      · intro _
        rfl
      · intro _
        exact mem_sadd.mpr (Or.inl rfl)
    · have hxq : x ∈ s.queue := by
        rw [hsplit]
        exact List.mem_append_right _ (List.mem_cons_of_mem _ hxbs)
      have hxne : x.id ≠ t.id := by
        intro heq
        exact hnotbs (heq ▸ List.mem_map.mpr ⟨x, hxbs, rfl⟩)
      constructor
      · intro hmem
        rcases mem_sadd.mp hmem with h | h
        · exact absurd h hxne
        · exact (hs.procIff x hxq).mp h
      · intro h
        exact mem_sadd.mpr (Or.inr ((hs.procIff x hxq).mpr h))
  · rw [admitState_processing, sadd_length_of_not_mem htid]
    exact hlt
  · rw [admitState_queue]
    exact pairwise_markFirstPending now hs.sortedQ
  · rw [admitState_queue, markFirstPending_length]
    exact hs.lenEvents

lemma inv_admitLoop {now : Nat} (fuel : Nat) {s : TaskQueue} (hs : QInv s) :
    QInv (admitLoop now fuel s) := by
  induction fuel generalizing s with
  | zero => exact hs
  | succ n ih =>
    simp only [admitLoop]
    by_cases hc : s.processing.length < s.maxConcurrent ∧ 0 < s.queue.length
    · rw [if_pos hc]
      cases hfind : s.queue.find? isPending with
      | none => exact hs
      | some t => exact ih (inv_admitStep hs hfind hc.1)
    · rw [if_neg hc]
      exact hs

lemma inv_processQueue {s : TaskQueue} {now : Nat} (hs : QInv s) :
    QInv (processQueue now s) := by
  unfold processQueue
  by_cases hr : s.running
  · rw [if_pos hr]
    exact inv_admitLoop _ hs
  · rw [if_neg hr]
    exact hs

lemma inv_resolveWith {s : TaskQueue} {id : String} {f : GenerationTask → GenerationTask}
    (hs : QInv s)
    (hid : ∀ t, (f t).id = t.id)
    (hkey : ∀ t, taskKey (f t) = taskKey t)
    (hst : ∀ t, (f t).status ≠ Status.processing) :
    QInv (resolveWith f id s) := by
  have hg : ∀ t : GenerationTask, ((if t.id = id then f t else t).id) = t.id := by
    intro t
    by_cases h : t.id = id
    · rw [if_pos h]
      exact hid t
    · rw [if_neg h]
  have hmapids : (s.queue.map (fun t => if t.id = id then f t else t)).map (fun t => t.id)
      = s.queue.map (fun t => t.id) := by
    rw [List.map_map]
    exact List.map_congr_left (fun t _ => hg t)
  refine ⟨?_, hs.procNodup.erase id, ?_, ?_, ?_, ?_, ?_⟩
  · rw [show (resolveWith f id s).queue
        = s.queue.map (fun t => if t.id = id then f t else t) from rfl]
    rw [hmapids]
    exact hs.idsNodup
  · intro i hi
    have hi2 : i ∈ s.processing := List.mem_of_mem_erase hi
    rcases hs.procMem i hi2 with ⟨u, huq, huid⟩
    refine ⟨(if u.id = id then f u else u), List.mem_map.mpr ⟨u, huq, rfl⟩, ?_⟩
    rw [hg u]
    exact huid
  · intro x hx
    rcases List.mem_map.mp hx with ⟨u, huq, hux⟩
    by_cases hu : u.id = id
    · have hxval : x = f u := by
        rw [← hux, if_pos hu]
      have hxid : x.id = id := by
        rw [hxval, hid u, hu]
      constructor
      · intro hmem
        rw [hxid] at hmem
        exact absurd rfl ((List.Nodup.mem_erase_iff hs.procNodup).mp hmem).1
      · intro hstat
        exact absurd hstat (hxval ▸ hst u)
    · have hxval : x = u := by
        rw [← hux, if_neg hu]
      subst hxval
      have hxne : x.id ≠ id := hu
      rw [show (resolveWith f id s).processing = s.processing.erase id from rfl]
      rw [List.mem_erase_of_ne hxne]
      exact hs.procIff x huq
  · calc (s.processing.erase id).length
        ≤ s.processing.length := (s.processing.erase_sublist id).length_le
      _ ≤ s.maxConcurrent := hs.procBound
  · rw [show (resolveWith f id s).queue
        = s.queue.map (fun t => if t.id = id then f t else t) from rfl]
    rw [List.pairwise_map]
    refine hs.sortedQ.imp ?_
    intro a b hab
    have ha : taskKey (if a.id = id then f a else a) = taskKey a := by
      by_cases h : a.id = id
      · rw [if_pos h]
        exact hkey a
      · rw [if_neg h]
    have hb : taskKey (if b.id = id then f b else b) = taskKey b := by
      by_cases h : b.id = id
      · rw [if_pos h]
        exact hkey b
      · rw [if_neg h]
    exact (taskBefore_congr ha hb).mpr hab
  · rw [show (resolveWith f id s).queue
        = s.queue.map (fun t => if t.id = id then f t else t) from rfl]
    rw [show (resolveWith f id s).events
        = s.events ++ [Emitted.taskCompleted id] from rfl]
    rw [List.length_map, List.countP_append]
    rw [show List.countP isTaskAdded [Emitted.taskCompleted id] = 0 from rfl]
    rw [Nat.add_zero]
    exact hs.lenEvents

lemma inv_completeTask {s : TaskQueue} {id : String} {res : Option String} {now : Nat}
    (hs : QInv s) : QInv (completeTask id res now s) := by
  refine inv_resolveWith hs ?_ ?_ ?_
  · intro t
    rw [show (completeBookkeeping now (applyResult res t)).id
        = (applyResult res t).id from rfl]
    exact applyResult_id res t
  · intro t
    rw [taskKey_completeBookkeeping, taskKey_applyResult]
  · intro t h
    rw [show (completeBookkeeping now (applyResult res t)).status
        = Status.completed from rfl] at h
    cases h

lemma inv_failTask {s : TaskQueue} {id : String} {msg : String} {now : Nat}
    (hs : QInv s) : QInv (failTask id msg now s) := by
  refine inv_resolveWith hs ?_ ?_ ?_
  · intro t
    rfl
  · intro t
    rw [taskKey_failBookkeeping]
  · intro t h
    rw [show (failBookkeeping msg now t).status = Status.failed from rfl] at h
    cases h

lemma inv_running {s : TaskQueue} (hs : QInv s) (b : Bool) :
    QInv { s with running := b } :=
  ⟨hs.idsNodup, hs.procNodup, hs.procMem, hs.procIff, hs.procBound, hs.sortedQ,
    hs.lenEvents⟩

lemma inv_startQueue {s : TaskQueue} {now : Nat} (hs : QInv s) :
    QInv (startQueue now s) :=
  inv_processQueue (inv_running hs true)

lemma inv_stopQueue {s : TaskQueue} (hs : QInv s) : QInv (stopQueue s) :=
  inv_running hs false

lemma inv_step {s s' : TaskQueue} {e : Ev} (hs : QInv s) (h : Step s e s') : QInv s' := by
  cases h with
  | submit hfresh => exact inv_addTask hs hfresh
  | tick => exact inv_processQueue hs
  | complete hin => exact inv_completeTask hs
  | fail hin => exact inv_failTask hs
  | start => exact inv_startQueue hs
  | stop => exact inv_stopQueue hs

lemma inv_reachable {c : Nat} {s : TaskQueue} (hr : Reachable c s) : QInv s := by
  induction hr with
  | refl => exact inv_init c
  | tail _ hstep ih =>
    rcases hstep with ⟨e, he⟩
    exact inv_step ih he

/-- Under the invariant, the number of tasks whose status is processing is
exactly the size of the processing set. -/
lemma processing_count_eq {s : TaskQueue} (hs : QInv s) :
    (s.queue.filter (fun t => decide (t.status = Status.processing))).length
      = s.processing.length := by
  have hsub : ((s.queue.filter (fun t => decide (t.status = Status.processing))).map
      (fun t => t.id)).Sublist (s.queue.map (fun t => t.id)) :=
    (List.filter_sublist s.queue).map _
  have hnd1 : ((s.queue.filter (fun t => decide (t.status = Status.processing))).map
      (fun t => t.id)).Nodup := hsub.nodup hs.idsNodup
  have hmem : ∀ i, i ∈ (s.queue.filter (fun t => decide (t.status = Status.processing))).map
      (fun t => t.id) ↔ i ∈ s.processing := by
    intro i
    constructor
    · intro himem
      rcases List.mem_map.mp himem with ⟨t, htf, htid⟩
      rcases List.mem_filter.mp htf with ⟨htq, htp⟩
      have hts : t.status = Status.processing := by
        simpa using htp
      rw [← htid]
      exact (hs.procIff t htq).mpr hts
    · intro hi
      rcases hs.procMem i hi with ⟨t, htq, htid⟩
      have hts : t.status = Status.processing := (hs.procIff t htq).mp (htid ▸ hi)
      exact List.mem_map.mpr ⟨t, List.mem_filter.mpr ⟨htq, by simp [hts]⟩, htid⟩
  have hperm := (List.perm_ext_iff_of_nodup hnd1 hs.procNodup).mpr hmem
  have hlen := hperm.length_eq
  rwa [List.length_map] at hlen

/-! Status-transition machinery: which single-step status changes each
queue operation can perform on a stored task. -/

/-- The status changes a single queue event may apply to a stored task:
stay put, admit a pending task, or finish a processing task. -/
def StatusEdge (a b : Status) : Prop :=
  a = b ∨ (a = Status.pending ∧ b = Status.processing) ∨
    (a = Status.processing ∧ (b = Status.completed ∨ b = Status.failed))

/-- The only status change the admission loop performs. -/
def AdmitEdge (a b : Status) : Prop :=
  a = b ∨ (a = Status.pending ∧ b = Status.processing)

lemma admitEdge_trans {a b c : Status} (h1 : AdmitEdge a b) (h2 : AdmitEdge b c) :
    AdmitEdge a c := by
  rcases h1 with rfl | ⟨rfl, rfl⟩
  · exact h2
  · rcases h2 with rfl | ⟨h2, _⟩
    · exact Or.inr ⟨rfl, rfl⟩
    · cases h2

lemma admitEdge_statusEdge {a b : Status} (h : AdmitEdge a b) : StatusEdge a b := by
  rcases h with rfl | ⟨rfl, rfl⟩
  · exact Or.inl rfl
  · exact Or.inr (Or.inl ⟨rfl, rfl⟩)

lemma admit_status_markFirstPending {now : Nat} {q : List GenerationTask}
    (hnd : (q.map (fun t => t.id)).Nodup) {t t' : GenerationTask}
    (ht : t ∈ q) (ht' : t' ∈ markFirstPending now q) (hid : t'.id = t.id) :
    AdmitEdge t.status t'.status := by
  rcases mem_markFirstPending ht' with ⟨y, hyq, hyid, _, hcase⟩
  have hyt : y = t := eq_of_mem_of_idsNodup hnd hyq ht (hyid.trans hid)
  subst hyt
  rcases hcase with rfl | ⟨rfl, hpend⟩
  · exact Or.inl rfl
  · refine Or.inr ⟨?_, rfl⟩
    simpa [isPending] using hpend

lemma ids_admitState (now : Nat) (t : GenerationTask) (s : TaskQueue) :
    ((admitState now t s).queue).map (fun u => u.id) = s.queue.map (fun u => u.id) := by
  rw [admitState_queue, markFirstPending_ids]

lemma ids_admitLoop (now fuel : Nat) (s : TaskQueue) :
    ((admitLoop now fuel s).queue).map (fun u => u.id) = s.queue.map (fun u => u.id) := by
  induction fuel generalizing s with
  | zero => rfl
  | succ n ih =>
    simp only [admitLoop]
    by_cases hc : s.processing.length < s.maxConcurrent ∧ 0 < s.queue.length
    · rw [if_pos hc]
      cases hfind : s.queue.find? isPending with
      | none => rfl
      | some t => rw [ih, ids_admitState]
    · rw [if_neg hc]

lemma exists_same_id_of_ids_eq {q q' : List GenerationTask}
    (h : q'.map (fun u => u.id) = q.map (fun u => u.id)) {t : GenerationTask}
    (ht : t ∈ q) : ∃ t', t' ∈ q' ∧ t'.id = t.id := by
  have hmem : t.id ∈ q'.map (fun u => u.id) := by
    rw [h]
    exact List.mem_map.mpr ⟨t, ht, rfl⟩
  rcases List.mem_map.mp hmem with ⟨t', ht', hid⟩
  exact ⟨t', ht', hid⟩

lemma admit_status_admitLoop {now : Nat} (fuel : Nat) {s : TaskQueue} (hs : QInv s)
    {t t' : GenerationTask} (ht : t ∈ s.queue)
    (ht' : t' ∈ (admitLoop now fuel s).queue) (hid : t'.id = t.id) :
    AdmitEdge t.status t'.status := by
  induction fuel generalizing s t with
  | zero =>
    have : t' = t := eq_of_mem_of_idsNodup hs.idsNodup ht' ht hid
    exact Or.inl (by rw [this])
  | succ n ih =>
    simp only [admitLoop] at ht'
    by_cases hc : s.processing.length < s.maxConcurrent ∧ 0 < s.queue.length
    · rw [if_pos hc] at ht'
      cases hfind : s.queue.find? isPending with
      | none =>
        rw [hfind] at ht'
        have : t' = t := eq_of_mem_of_idsNodup hs.idsNodup ht' ht hid
        exact Or.inl (by rw [this])
      | some u =>
        rw [hfind] at ht'
        have hs1 : QInv (admitState now u s) := inv_admitStep hs hfind hc.1
        rcases exists_same_id_of_ids_eq (ids_admitState now u s) ht with ⟨t1, ht1, ht1id⟩
        have ht1m : t1 ∈ markFirstPending now s.queue := ht1
        have hmid : AdmitEdge t.status t1.status :=
          admit_status_markFirstPending hs.idsNodup ht ht1m ht1id
        exact admitEdge_trans hmid (ih hs1 ht1 ht' (hid.trans ht1id.symm))
    · rw [if_neg hc] at ht'
      have : t' = t := eq_of_mem_of_idsNodup hs.idsNodup ht' ht hid
      exact Or.inl (by rw [this])

lemma resolve_pointwise {s : TaskQueue} (hs : QInv s) {f : GenerationTask → GenerationTask}
    {id : String} (hfid : ∀ u, (f u).id = u.id) {t t' : GenerationTask}
    (ht : t ∈ s.queue) (ht' : t' ∈ (resolveWith f id s).queue) (hid : t'.id = t.id) :
    t' = (if t.id = id then f t else t) := by
  rcases List.mem_map.mp ht' with ⟨u, huq, hut⟩
  have huid : u.id = t.id := by
    by_cases h : u.id = id
    · rw [← hid, ← hut, if_pos h, hfid u]
    · rw [← hid, ← hut, if_neg h]
  have : u = t := eq_of_mem_of_idsNodup hs.idsNodup huq ht huid
  rw [← hut, this]

/-- Every single queue event moves each stored task's status along at most
one edge of the lifecycle state machine. -/
lemma status_step {s s' : TaskQueue} {e : Ev} (hs : QInv s) (h : Step s e s')
    {t t' : GenerationTask} (ht : t ∈ s.queue) (ht' : t' ∈ s'.queue)
    (hid : t'.id = t.id) : StatusEdge t.status t'.status := by
  cases h with
  | @submit inp id now hfresh =>
    rcases List.mem_append.mp (mem_sortQueue.mp ht') with hq | hn
    · have : t' = t := eq_of_mem_of_idsNodup hs.idsNodup hq ht hid
      exact Or.inl (by rw [this])
    · exfalso
      have hteq : t' = newTaskOf inp id now := List.mem_singleton.mp hn
      apply hfresh t ht
      rw [← hid, hteq]
      rfl
  | @tick now =>
    rw [show (processQueue now s) = if s.running then admitLoop now s.queue.length s else s
        from rfl] at ht'
    by_cases hr : s.running
    · rw [if_pos hr] at ht'
      exact admitEdge_statusEdge (admit_status_admitLoop _ hs ht ht' hid)
    · rw [if_neg hr] at ht'
      have : t' = t := eq_of_mem_of_idsNodup hs.idsNodup ht' ht hid
      exact Or.inl (by rw [this])
  | @complete id res now hin =>
    have hfid : ∀ u : GenerationTask,
        (completeBookkeeping now (applyResult res u)).id = u.id := by
      intro u
      rw [show (completeBookkeeping now (applyResult res u)).id
          = (applyResult res u).id from rfl]
      exact applyResult_id res u
    have hpt := resolve_pointwise hs hfid ht ht' hid
    by_cases hti : t.id = id
    · rw [if_pos hti] at hpt
      have hstat : t.status = Status.processing := (hs.procIff t ht).mp (hti ▸ hin)
      refine Or.inr (Or.inr ⟨hstat, Or.inl ?_⟩)
      rw [hpt]
      rfl
    · rw [if_neg hti] at hpt
      exact Or.inl (by rw [hpt])
  | @fail id msg now hin =>
    have hfid : ∀ u : GenerationTask, (failBookkeeping msg now u).id = u.id :=
      fun u => rfl
    have hpt := resolve_pointwise hs hfid ht ht' hid
    by_cases hti : t.id = id
    · rw [if_pos hti] at hpt
      have hstat : t.status = Status.processing := (hs.procIff t ht).mp (hti ▸ hin)
      refine Or.inr (Or.inr ⟨hstat, Or.inr ?_⟩)
      rw [hpt]
      rfl
    · rw [if_neg hti] at hpt
      exact Or.inl (by rw [hpt])
  | @start now =>
    rw [show (startQueue now s)
        = processQueue now { s with running := true } from rfl] at ht'
    rw [show (processQueue now { s with running := true })
        = if ({ s with running := true } : TaskQueue).running
          then admitLoop now ({ s with running := true } : TaskQueue).queue.length
            { s with running := true }
          else { s with running := true } from rfl, if_pos rfl] at ht'
    exact admitEdge_statusEdge
      (admit_status_admitLoop _ (inv_running hs true) ht ht' hid)
  | stop =>
    have : t' = t := eq_of_mem_of_idsNodup hs.idsNodup ht' ht hid
    exact Or.inl (by rw [this])

/-! Per-step preservation of the stored tasks and the queue length. -/

lemma ids_processQueue (now : Nat) (s : TaskQueue) :
    ((processQueue now s).queue).map (fun u => u.id) = s.queue.map (fun u => u.id) := by
  unfold processQueue
  by_cases hr : s.running
  · rw [if_pos hr, ids_admitLoop]
  · rw [if_neg hr]

lemma ids_resolveWith (f : GenerationTask → GenerationTask) (id : String)
    (s : TaskQueue) (hfid : ∀ u, (f u).id = u.id) :
    ((resolveWith f id s).queue).map (fun u => u.id) = s.queue.map (fun u => u.id) := by
  rw [show (resolveWith f id s).queue
      = s.queue.map (fun t => if t.id = id then f t else t) from rfl]
  rw [List.map_map]
  refine List.map_congr_left ?_
  intro u _
  by_cases h : u.id = id
  · show (if u.id = id then f u else u).id = u.id
    rw [if_pos h]
    exact hfid u
  · show (if u.id = id then f u else u).id = u.id
    rw [if_neg h]

/-- Tasks are never removed: every stored task survives every event with
its id intact. -/
lemma task_persists_step {s s' : TaskQueue} {e : Ev} (h : Step s e s') :
    ∀ t ∈ s.queue, ∃ t', t' ∈ s'.queue ∧ t'.id = t.id := by
  intro t ht
  cases h with
  | submit hfresh =>
    exact ⟨t, mem_sortQueue.mpr (List.mem_append_left _ ht), rfl⟩
  | tick =>
    exact exists_same_id_of_ids_eq (ids_processQueue _ s) ht
  | @complete id res now hin =>
    refine exists_same_id_of_ids_eq
      (ids_resolveWith (fun u => completeBookkeeping now (applyResult res u)) id s ?_) ht
    intro u
    rw [show (completeBookkeeping now (applyResult res u)).id
        = (applyResult res u).id from rfl]
    exact applyResult_id res u
  | @fail id msg now hin =>
    exact exists_same_id_of_ids_eq
      (ids_resolveWith (failBookkeeping msg now) id s (fun u => rfl)) ht
  | start =>
    exact exists_same_id_of_ids_eq (ids_processQueue _ _) ht
  | stop =>
    exact ⟨t, ht, rfl⟩

lemma length_step {s s' : TaskQueue} {e : Ev} (h : Step s e s') :
    s'.queue.length = s.queue.length ∨
      (∃ inp id now, e = Ev.submit inp id now ∧
        s'.queue.length = s.queue.length + 1) := by
  cases h with
  | @submit inp id now hfresh =>
    refine Or.inr ⟨inp, id, now, rfl, ?_⟩
    have := (sortQueue_perm (s.queue ++ [newTaskOf inp id now])).length_eq
    rw [List.length_append, List.length_singleton] at this
    exact this
  | @tick now =>
    left
    have := congrArg List.length (ids_processQueue now s)
    rwa [List.length_map, List.length_map] at this
  | complete hin =>
    left
    exact List.length_map _ _
  | fail hin =>
    left
    exact List.length_map _ _
  | @start now =>
    left
    have := congrArg List.length (ids_processQueue now { s with running := true })
    rwa [List.length_map, List.length_map] at this
  | stop =>
    left
    rfl

/-- At or above the ceiling the scheduling pass admits nothing at all. -/
lemma processQueue_at_capacity {s : TaskQueue} (now : Nat)
    (h : s.maxConcurrent ≤ s.processing.length) : processQueue now s = s := by
  unfold processQueue
  by_cases hr : s.running
  · rw [if_pos hr]
    cases hq : s.queue.length with
    | zero => rfl
    | succ n =>
      simp only [admitLoop]
      rw [if_neg]
      rintro ⟨h1, _⟩
      omega
  · rw [if_neg hr]

/-! Aliasing facts for `getTask`: the reference it returns is the queue's
own array element. -/

lemma refFind_spec {p : GenerationTask → Bool} :
    ∀ {l : List GenerationTask} {r : Nat}, refFind p l = some r →
      ∃ hr : r < l.length, l.find? p = some (l.get ⟨r, hr⟩) := by
  intro l
  induction l with
  | nil => intro r h; cases h
  | cons t q ih =>
    intro r h
    by_cases hp : p t
    · rw [show refFind p (t :: q) = if p t then some 0 else (refFind p q).map (· + 1)
          from rfl, if_pos hp] at h
      cases h
      exact ⟨Nat.succ_pos _, by rw [List.find?_cons_of_pos _ hp]; rfl⟩
    · rw [show refFind p (t :: q) = if p t then some 0 else (refFind p q).map (· + 1)
          from rfl, if_neg hp] at h
      rcases Option.map_eq_some'.mp h with ⟨r0, hr0, hr0s⟩
      subst hr0s
      rcases ih hr0 with ⟨hlt, hfind⟩
      refine ⟨Nat.succ_lt_succ hlt, ?_⟩
      rw [List.find?_cons_of_neg _ hp, hfind]
      rfl

lemma mutateAt_set (f : GenerationTask → GenerationTask) :
    ∀ {l : List GenerationTask} {r : Nat} (hr : r < l.length),
      mutateAt f r l = l.set r (f (l.get ⟨r, hr⟩)) := by
  intro l
  induction l with
  | nil => intro r hr; cases hr
  | cons t q ih =>
    intro r hr
    cases r with
    | zero => rfl
    | succ n =>
      have hn : n < q.length := Nat.lt_of_succ_lt_succ hr
      show t :: mutateAt f n q = t :: q.set n (f (q.get ⟨n, hn⟩))
      rw [ih hn]

/-! A concrete run used to witness the reachability-based theorems:
ceiling 1, three submissions with priorities low, high, medium (in that
order), then alternating scheduler passes and successful resolutions. -/

def inpLow : TaskInput := { topic := "cats", keywords := ["cat"], priority := Priority.low }
def inpHigh : TaskInput := { topic := "dogs", keywords := ["dog"], priority := Priority.high }
def inpMed : TaskInput := { topic := "fish", keywords := ["fish"], priority := Priority.medium }

def demo1 : TaskQueue := startQueue 0 (initQueue 1)
def demo2 : TaskQueue := (addTask inpLow "task_1_a" 1 demo1).1
def demo3 : TaskQueue := (addTask inpHigh "task_2_b" 2 demo2).1
def demo4 : TaskQueue := (addTask inpMed "task_3_c" 3 demo3).1
def demo5 : TaskQueue := processQueue 4 demo4
def demo6 : TaskQueue := completeTask "task_2_b" (some "post_dogs") 5 demo5
def demo7 : TaskQueue := processQueue 6 demo6
def demo8 : TaskQueue := completeTask "task_3_c" none 7 demo7
def demo9 : TaskQueue := processQueue 8 demo8

/-- The queue of the demo run after stopping it while one task is still
in flight. -/
def demoS : TaskQueue := stopQueue demo5

/-- Scenario state for the statistics snapshot: ceiling 1, two high, one
medium and one low submission, one scheduling pass, zero completions. -/
def inpHighB : TaskInput := { topic := "birds", keywords := ["bird"], priority := Priority.high }

def demoD : TaskQueue :=
  processQueue 5 (addTask inpLow "task_d4" 4 (addTask inpMed "task_d3" 3
    (addTask inpHigh "task_d2" 2 (addTask inpHighB "task_d1" 1
      (startQueue 0 (initQueue 1))).1).1).1).1

lemma reachable_demo1 : Reachable 1 demo1 :=
  Relation.ReflTransGen.single ⟨Ev.start 0, Step.start⟩

lemma reachable_demo2 : Reachable 1 demo2 :=
  reachable_demo1.tail ⟨Ev.submit inpLow "task_1_a" 1, Step.submit (by decide)⟩

lemma reachable_demo3 : Reachable 1 demo3 :=
  reachable_demo2.tail ⟨Ev.submit inpHigh "task_2_b" 2, Step.submit (by decide)⟩

lemma reachable_demo4 : Reachable 1 demo4 :=
  reachable_demo3.tail ⟨Ev.submit inpMed "task_3_c" 3, Step.submit (by decide)⟩

lemma reachable_demo5 : Reachable 1 demo5 :=
  reachable_demo4.tail ⟨Ev.tick 4, Step.tick⟩

lemma reachable_demo6 : Reachable 1 demo6 :=
  reachable_demo5.tail
    ⟨Ev.complete "task_2_b" (some "post_dogs") 5, Step.complete (by decide)⟩

lemma reachable_demoS : Reachable 1 demoS :=
  reachable_demo5.tail ⟨Ev.stop, Step.stop⟩

/-! The claims. -/

/-- C1: for every reachable state, the number of tasks in processing
status never exceeds the configured concurrency ceiling
`config.queue.maxConcurrent`, the in-flight set obeys the same bound, and
a scheduling pass at or above the ceiling admits nothing. -/
theorem concurrency_ceiling_never_exceeded {c : Nat} {s : TaskQueue}
    (hr : Reachable c s) :
    s.queue.countP (fun t => decide (t.status = Status.processing)) ≤ s.maxConcurrent
      ∧ s.processing.length ≤ s.maxConcurrent
      ∧ ∀ now, s.maxConcurrent ≤ s.processing.length → processQueue now s = s := by
  have hs := inv_reachable hr
  refine ⟨?_, hs.procBound, fun now h => processQueue_at_capacity now h⟩
  rw [List.countP_eq_length_filter, processing_count_eq hs]
  exact hs.procBound

theorem concurrency_ceiling_never_exceeded_witness :
    demo5.queue.countP (fun t => decide (t.status = Status.processing))
        ≤ demo5.maxConcurrent
      ∧ demo5.processing.length ≤ demo5.maxConcurrent
      ∧ ∀ now, demo5.maxConcurrent ≤ demo5.processing.length →
          processQueue now demo5 = demo5 :=
  concurrency_ceiling_never_exceeded reachable_demo5

/-- C2: every queue event moves every stored task's status along at most
one edge of pending to processing to completed-or-failed: no event ever
returns a task to pending, jumps from pending to a terminal status, or
changes a terminal status. -/
theorem status_transitions_one_directional {c : Nat} {s s' : TaskQueue} {e : Ev}
    (hr : Reachable c s) (hstep : Step s e s') {t t' : GenerationTask}
    (ht : t ∈ s.queue) (ht' : t' ∈ s'.queue) (hid : t'.id = t.id) :
    StatusEdge t.status t'.status :=
  status_step (inv_reachable hr) hstep ht ht' hid

theorem status_transitions_one_directional_witness :
    StatusEdge (newTaskOf inpLow "task_1_a" 1).status
      (newTaskOf inpLow "task_1_a" 1).status :=
  @status_transitions_one_directional 1 demo4 demo5 (Ev.tick 4) reachable_demo4
    Step.tick (newTaskOf inpLow "task_1_a" 1) (newTaskOf inpLow "task_1_a" 1)
    (by decide) (by decide) rfl

/-- C3: the scheduler's selection (the first pending task of the sorted
queue, the task `processQueue` admits) is a highest-priority pending task
and, within that priority, the one with the smallest creation timestamp;
and the concrete run submitting low, high, medium in that order with
ceiling 1 and instantly resolving work admits high, then medium, then
low. -/
theorem admission_selects_highest_priority_oldest :
    (∀ (c : Nat) (s : TaskQueue) (t : GenerationTask), Reachable c s →
        s.queue.find? isPending = some t →
        ∀ u ∈ s.queue, isPending u = true →
          priorityValues u.priority ≤ priorityValues t.priority ∧
            (priorityValues u.priority = priorityValues t.priority →
              t.createdAt ≤ u.createdAt))
      ∧ demo5.processing = ["task_2_b"]
      ∧ demo7.processing = ["task_3_c"]
      ∧ demo9.processing = ["task_1_a"] := by
  refine ⟨?_, by decide, by decide, by decide⟩
  intro c s t hr hf u hu hup
  have hs := inv_reachable hr
  rcases find_first_best hs.sortedQ hf u hu hup with rfl | hb
  · exact ⟨Nat.le_refl _, fun _ => Nat.le_refl _⟩
  · simp only [taskBefore, keyLE, taskKey] at hb
    exact ⟨by omega, by omega⟩

theorem admission_selects_highest_priority_oldest_witness :
    priorityValues (newTaskOf inpLow "task_1_a" 1).priority
        ≤ priorityValues (newTaskOf inpHigh "task_2_b" 2).priority
      ∧ (priorityValues (newTaskOf inpLow "task_1_a" 1).priority
            = priorityValues (newTaskOf inpHigh "task_2_b" 2).priority →
          (newTaskOf inpHigh "task_2_b" 2).createdAt
            ≤ (newTaskOf inpLow "task_1_a" 1).createdAt) :=
  admission_selects_highest_priority_oldest.1 1 demo4 (newTaskOf inpHigh "task_2_b" 2)
    reachable_demo4 (by decide) (newTaskOf inpLow "task_1_a" 1) (by decide) (by decide)

/-- C4: on resolution of a dispatched work unit the queue marks the task
completed (success) or failed with the captured message (failure), records
the completion timestamp, removes the id from the in-flight set (restoring
its pre-dispatch size), and emits the completion event; both branches do
all of this and neither touches the running flag, so a throwing callback
cannot halt scheduling. -/
theorem completion_handling_finally {c : Nat} {s : TaskQueue} {id : String}
    {res : Option String} {msg : String} {now : Nat}
    (hr : Reachable c s) (hin : id ∈ s.processing) :
    (∃ t, t ∈ (completeTask id res now s).queue ∧ t.id = id ∧
        t.status = Status.completed ∧ t.completedAt = some now)
      ∧ (∃ t, t ∈ (failTask id msg now s).queue ∧ t.id = id ∧
          t.status = Status.failed ∧ t.error = some msg ∧ t.completedAt = some now)
      ∧ id ∉ (completeTask id res now s).processing
      ∧ id ∉ (failTask id msg now s).processing
      ∧ (completeTask id res now s).processing.length + 1 = s.processing.length
      ∧ (failTask id msg now s).processing.length + 1 = s.processing.length
      ∧ (completeTask id res now s).events = s.events ++ [Emitted.taskCompleted id]
      ∧ (failTask id msg now s).events = s.events ++ [Emitted.taskCompleted id]
      ∧ (completeTask id res now s).running = s.running
      ∧ (failTask id msg now s).running = s.running := by
  have hs := inv_reachable hr
  rcases hs.procMem id hin with ⟨t0, ht0q, ht0id⟩
  have hnotin : id ∉ s.processing.erase id := fun hmem =>
    ((List.Nodup.mem_erase_iff hs.procNodup).mp hmem).1 rfl
  have hlen1 := List.length_erase_of_mem hin
  have hlen2 : 0 < s.processing.length := List.length_pos_of_mem hin
  refine ⟨?_, ?_, hnotin, hnotin, ?_, ?_, rfl, rfl, rfl, rfl⟩
  · refine ⟨completeBookkeeping now (applyResult res t0), ?_, ?_, rfl, rfl⟩
    · refine List.mem_map.mpr ⟨t0, ht0q, ?_⟩
      rw [if_pos ht0id]
    · rw [show (completeBookkeeping now (applyResult res t0)).id
          = (applyResult res t0).id from rfl, applyResult_id]
      exact ht0id
  · refine ⟨failBookkeeping msg now t0, ?_, ht0id, rfl, rfl, rfl⟩
    refine List.mem_map.mpr ⟨t0, ht0q, ?_⟩
    rw [if_pos ht0id]
  · rw [show (completeTask id res now s).processing = s.processing.erase id from rfl]
    omega
  · rw [show (failTask id msg now s).processing = s.processing.erase id from rfl]
    omega

theorem completion_handling_finally_witness :
    "task_2_b" ∉ (completeTask "task_2_b" (some "post_dogs") 5 demo5).processing
      ∧ (failTask "task_2_b" "boom" 5 demo5).events
          = demo5.events ++ [Emitted.taskCompleted "task_2_b"] := by
  have h := @completion_handling_finally 1 demo5 "task_2_b" (some "post_dogs") "boom" 5
    reachable_demo5 (by decide)
  exact ⟨h.2.2.1, h.2.2.2.2.2.2.2.1⟩

/-- C5 counterexample: a structurally invalid submission (empty topic and
empty keyword set) is not rejected by `addTask`: the call returns the
generated id and the task enters the queue with status pending, so the
claim that invalid submissions fail synchronously and never enter the
pending set is false of the code. -/
theorem addTask_accepts_invalid_submission :
    (addTask { topic := "", keywords := [], priority := Priority.medium }
        "task_bad" 0 (initQueue 1)).2 = "task_bad"
      ∧ getTask (addTask { topic := "", keywords := [], priority := Priority.medium }
            "task_bad" 0 (initQueue 1)).1 "task_bad"
          = some (newTaskOf { topic := "", keywords := [], priority := Priority.medium }
              "task_bad" 0)
      ∧ (newTaskOf { topic := "", keywords := [], priority := Priority.medium }
            "task_bad" 0).status = Status.pending := by
  exact ⟨rfl, by decide, rfl⟩

/-- C5 amended: `addTask` performs no input validation at all: every
submission, structurally valid or not, succeeds, immediately returns the
generated id, and places a task with status pending and the caller's
topic and keywords into the queue. -/
theorem addTask_always_succeeds (s : TaskQueue) (inp : TaskInput) (id : String)
    (now : Nat) :
    (addTask inp id now s).2 = id
      ∧ newTaskOf inp id now ∈ (addTask inp id now s).1.queue
      ∧ (newTaskOf inp id now).status = Status.pending
      ∧ (newTaskOf inp id now).id = id
      ∧ (newTaskOf inp id now).topic = inp.topic
      ∧ (newTaskOf inp id now).keywords = inp.keywords := by
  refine ⟨rfl, ?_, rfl, rfl, rfl, rfl⟩
  exact mem_sortQueue.mpr (List.mem_append_right _ (List.mem_singleton.mpr rfl))

/-- State used to exhibit the aliasing behaviour of `getTask`. -/
def aliasDemo : TaskQueue := (addTask inpHigh "task_x" 7 (initQueue 2)).1

/-- C6 counterexample: `getTask` returns the queue's own stored object
(`Array.prototype.find` returns the element, not a copy), so a caller
field write through the returned reference changes the queue's internal
state: after the write, the queue itself differs and `getTask` reports the
mutated task.  This refutes the claim that the returned value is a copy
whose mutation cannot affect the queue. -/
theorem getTask_alias_mutation :
    getTaskRef aliasDemo "task_x" = some 0
      ∧ writeThroughRef aliasDemo 0
            (fun t => { t with error := some "mutated by caller" }) ≠ aliasDemo
      ∧ getTask (writeThroughRef aliasDemo 0
            (fun t => { t with error := some "mutated by caller" })) "task_x"
          = some { newTaskOf inpHigh "task_x" 7 with error := some "mutated by caller" } := by
  exact ⟨by decide, by decide, by decide⟩

/-- C6 amended: `getTask` on an unknown id returns the explicit absent
result (none, never an exception), and on a known id returns the live
stored element: the reference it hands out is the queue's array cell, so a
caller write through it lands in the queue's own storage. -/
theorem getTask_lookup_semantics (s : TaskQueue) (taskId : String) :
    (getTask s taskId = none ↔ ∀ t ∈ s.queue, t.id ≠ taskId)
      ∧ (∀ r, getTaskRef s taskId = some r →
          ∃ hr : r < s.queue.length,
            getTask s taskId = some (s.queue.get ⟨r, hr⟩)
              ∧ ∀ f, (writeThroughRef s r f).queue
                  = s.queue.set r (f (s.queue.get ⟨r, hr⟩))) := by
  constructor
  · rw [show getTask s taskId
        = s.queue.find? (fun t => decide (t.id = taskId)) from rfl]
    rw [List.find?_eq_none]
    constructor
    · intro h t ht
      simpa using h t ht
    · intro h t ht
      simpa using h t ht
  · intro r href
    rcases refFind_spec href with ⟨hr, hfind⟩
    refine ⟨hr, hfind, ?_⟩
    intro f
    rw [show (writeThroughRef s r f).queue = mutateAt f r s.queue from rfl]
    rw [mutateAt_set f hr]

theorem getTask_lookup_semantics_witness :
    getTask aliasDemo "task_x" = some (aliasDemo.queue.get ⟨0, by decide⟩)
      ∧ (writeThroughRef aliasDemo 0 (fun t => { t with error := some "e" })).queue
          = aliasDemo.queue.set 0
              { aliasDemo.queue.get ⟨0, by decide⟩ with error := some "e" } := by
  rcases (getTask_lookup_semantics aliasDemo "task_x").2 0 (by decide)
    with ⟨hr, hfind, hwrite⟩
  exact ⟨hfind, hwrite (fun t => { t with error := some "e" })⟩

/-- C7: the statistics snapshot after submitting two high, one medium and
one low task with ceiling 1 and zero completions: four tasks in total, one
in flight, counts by status pending 3 and processing 1, counts by priority
high 2, medium 1, low 1.  (In the source the snapshot's keys are
`queueLength`, `processing`, `byStatus` and `byPriority`; the pending
count is `byStatus.pending` and the processing count is `processing`.) -/
theorem stats_scenario_snapshot :
    getStats demoD =
      { queueLength := 4, processing := 1,
        byStatus := { pending := 3, processing := 1, completed := 0, failed := 0 },
        byPriority := { high := 2, medium := 1, low := 1 } } := by
  decide

/-- C8: while the queue is stopped, no event other than `start` moves any
pending task out of pending (no admission), and stopping commutes with the
resolution of in-flight work: an in-flight task still completes or fails
with its normal handling, and its id stays in the in-flight set until it
resolves. -/
theorem stop_halts_admission :
    (∀ (c : Nat) (s s' : TaskQueue) (e : Ev), Reachable c s → s.running = false →
        Step s e s' → (∀ n, e ≠ Ev.start n) →
        ∀ t ∈ s.queue, t.status = Status.pending →
          ∀ t' ∈ s'.queue, t'.id = t.id → t'.status = Status.pending)
      ∧ (∀ (s : TaskQueue) (id : String) (res : Option String) (now : Nat),
          completeTask id res now (stopQueue s) = stopQueue (completeTask id res now s))
      ∧ (∀ (s : TaskQueue) (id msg : String) (now : Nat),
          failTask id msg now (stopQueue s) = stopQueue (failTask id msg now s))
      ∧ (∀ (s : TaskQueue) (id : String),
          id ∈ (stopQueue s).processing ↔ id ∈ s.processing) := by
  refine ⟨?_, fun s id res now => rfl, fun s id msg now => rfl,
    fun s id => Iff.rfl⟩
  intro c s s' e hr hrun hstep hne t ht hpend t' ht' hid
  have hs := inv_reachable hr
  cases hstep with
  | @submit inp id now hfresh =>
    rcases List.mem_append.mp (mem_sortQueue.mp ht') with hq | hn
    · have heq : t' = t := eq_of_mem_of_idsNodup hs.idsNodup hq ht hid
      rw [heq, hpend]
    · rw [List.mem_singleton.mp hn]
      rfl
  | @tick now =>
    rw [show (processQueue now s)
        = if s.running then admitLoop now s.queue.length s else s from rfl] at ht'
    rw [hrun] at ht'
    simp only [Bool.false_eq_true, if_false] at ht'
    have heq : t' = t := eq_of_mem_of_idsNodup hs.idsNodup ht' ht hid
    rw [heq, hpend]
  | @complete id res now hin =>
    have hfid : ∀ u : GenerationTask,
        (completeBookkeeping now (applyResult res u)).id = u.id := by
      intro u
      rw [show (completeBookkeeping now (applyResult res u)).id
          = (applyResult res u).id from rfl]
      exact applyResult_id res u
    have hpt := resolve_pointwise hs hfid ht ht' hid
    by_cases hti : t.id = id
    · exfalso
      have hstat : t.status = Status.processing := (hs.procIff t ht).mp (hti ▸ hin)
      rw [hpend] at hstat
      cases hstat
    · rw [if_neg hti] at hpt
      rw [hpt, hpend]
  | @fail id msg now hin =>
    have hfid : ∀ u : GenerationTask, (failBookkeeping msg now u).id = u.id :=
      fun u => rfl
    have hpt := resolve_pointwise hs hfid ht ht' hid
    by_cases hti : t.id = id
    · exfalso
      have hstat : t.status = Status.processing := (hs.procIff t ht).mp (hti ▸ hin)
      rw [hpend] at hstat
      cases hstat
    · rw [if_neg hti] at hpt
      rw [hpt, hpend]
  | @start now =>
    exact absurd rfl (hne now)
  | stop =>
    have heq : t' = t := eq_of_mem_of_idsNodup hs.idsNodup ht' ht hid
    rw [heq, hpend]

theorem stop_halts_admission_witness :
    (newTaskOf inpLow "task_1_a" 1).status = Status.pending :=
  stop_halts_admission.1 1 demoS (processQueue 9 demoS) (Ev.tick 9)
    reachable_demoS rfl Step.tick (fun n h => Ev.noConfusion h)
    (newTaskOf inpLow "task_1_a" 1) (by decide) rfl
    (newTaskOf inpLow "task_1_a" 1) (by decide) rfl

/-- C9: no event removes a stored task: every task survives every step
with its id intact, a task `getTask` finds stays findable, and
`queueLength` in the statistics equals the number of `taskAdded` events
ever emitted (the total ever submitted), not the number still pending. -/
theorem tasks_never_removed {c : Nat} {s s' : TaskQueue} {e : Ev}
    (hr : Reachable c s) (hstep : Step s e s') :
    (∀ t ∈ s.queue, ∃ t', t' ∈ s'.queue ∧ t'.id = t.id)
      ∧ (∀ taskId, getTask s taskId ≠ none → getTask s' taskId ≠ none)
      ∧ (getStats s).queueLength = s.events.countP isTaskAdded
      ∧ (getStats s').queueLength = s'.events.countP isTaskAdded := by
  have hs := inv_reachable hr
  have hs' : QInv s' := inv_step hs hstep
  refine ⟨task_persists_step hstep, ?_, hs.lenEvents, hs'.lenEvents⟩
  intro taskId hne
  have h1 : (s.queue.find? (fun t => decide (t.id = taskId))).isSome = true := by
    rw [← Option.ne_none_iff_isSome]
    exact hne
  rcases List.find?_isSome.mp h1 with ⟨t, htq, htp⟩
  have htid : t.id = taskId := by simpa using htp
  rcases task_persists_step hstep t htq with ⟨t', ht', hids⟩
  rw [show getTask s' taskId
      = s'.queue.find? (fun u => decide (u.id = taskId)) from rfl]
  rw [Option.ne_none_iff_isSome]
  exact List.find?_isSome.mpr ⟨t', ht', by simp [hids, htid]⟩

theorem tasks_never_removed_witness :
    (getStats demo5).queueLength = demo5.events.countP isTaskAdded
      ∧ getTask demo6 "task_2_b" ≠ none := by
  have h := @tasks_never_removed 1 demo5 demo6
    (Ev.complete "task_2_b" (some "post_dogs") 5) reachable_demo5
    (Step.complete (by decide))
  exact ⟨h.2.2.1, h.2.1 "task_2_b" (by decide)⟩

/-- C10: the queue's own success bookkeeping writes only the status and
the completion timestamp; in particular it never writes `result`, which
changes only when the caller-supplied callback (which returns no value and
is handed the live task) itself assigns it, as the server wiring does with
`task.result = post`. -/
theorem queue_never_writes_result (t : GenerationTask) (now : Nat) (p msg : String) :
    (completeBookkeeping now t).result = t.result
      ∧ (completeBookkeeping now t).id = t.id
      ∧ (completeBookkeeping now t).topic = t.topic
      ∧ (completeBookkeeping now t).keywords = t.keywords
      ∧ (completeBookkeeping now t).priority = t.priority
      ∧ (completeBookkeeping now t).error = t.error
      ∧ (completeBookkeeping now t).createdAt = t.createdAt
      ∧ (completeBookkeeping now t).startedAt = t.startedAt
      ∧ (completeBookkeeping now t).status = Status.completed
      ∧ (completeBookkeeping now t).completedAt = some now
      ∧ (failBookkeeping msg now t).result = t.result
      ∧ (completeBookkeeping now (applyResult none t)).result = t.result
      ∧ (completeBookkeeping now (serverCallbackEffect p t)).result = some p
      ∧ serverCallbackEffect p t = applyResult (some p) t :=
  ⟨rfl, rfl, rfl, rfl, rfl, rfl, rfl, rfl, rfl, rfl, rfl, rfl, rfl, rfl⟩
